import Mathlib

/-!
Verification of the atuin sqlite storage backend
(`crates/atuin-server-sqlite/src/lib.rs`).

The sqlite database is embedded shallowly: the `store` table and the
`store_idx_cache` table become lists of rows, and each database
operation becomes a pure function on that state.  The `idx` and
`timestamp` columns are sqlite `INTEGER`s, i.e. signed 64-bit values;
the Rust code casts the wire-level `u64` values with `as i64` on the
way in and `as u64` on the way out, so the embedding keeps the stored
columns as `Int` and makes both casts explicit (`toI64` / `toU64`).

Uuid parsing (`str.parse::<Uuid>()`) is kept abstract: operations that
parse stored identifiers take a `parse : String → Option String`
argument, and a `.unwrap()` on a failed parse is modelled by the whole
operation returning `none` (a panic).
-/

namespace AtuinSqlite

/-! ## Data model and operations -/

/-- Rust `as i64` applied to a `u64` value (two's-complement wrap). -/
def toI64 (n : Nat) : Int :=
  if n % (2 ^ 64) < 2 ^ 63 then ((n % (2 ^ 64) : Nat) : Int)
  else ((n % (2 ^ 64) : Nat) : Int) - 2 ^ 64

/-- Rust `as u64` applied to an `i64` value (two's-complement wrap). -/
def toU64 (i : Int) : Nat := (i % (2 ^ 64)).toNat

/-- `atuin_common::record::EncryptedData`. -/
structure EncryptedData where
  data : String
  content_encryption_key : String
  deriving DecidableEq

/-- Wire-level `Record<EncryptedData>` as received from / returned to a
client: `id` and `host` are the string forms of the uuids, `idx` and
`timestamp` are `u64` values. -/
structure Record where
  id : String
  idx : Nat
  host : String
  tag : String
  timestamp : Nat
  version : String
  data : EncryptedData
  deriving DecidableEq

/-- One row of the `store` table.  `id` is the server-generated uuid,
`client_id` the record id sent by the client; `idx` and `timestamp` are
the sqlite `INTEGER` (i64) columns. -/
structure StoreRow where
  id : String
  client_id : String
  host : String
  idx : Int
  timestamp : Int
  version : String
  tag : String
  data : String
  cek : String
  user_id : Int
  deriving DecidableEq

/-- One row of the `store_idx_cache` table. -/
structure CacheRow where
  user_id : Int
  host : String
  tag : String
  idx : Int
  deriving DecidableEq

/-- The database state relevant to the record store: the `store` table
and the `store_idx_cache` table. -/
structure DbState where
  store : List StoreRow
  cache : List CacheRow
  deriving DecidableEq

/-- The sqlx error kinds distinguished by `fix_error`. -/
inductive SqlxError where
  | RowNotFound : SqlxError
  | Other : SqlxError
  deriving DecidableEq

/-- `DbError` from `atuin_server_database`: absence vs. opaque failure. -/
inductive DbError where
  | NotFound : DbError
  | Other : DbError
  deriving DecidableEq

/-- `fn fix_error(e: sqlx::Error) -> DbError` (lib.rs:42-47). -/
def fix_error : SqlxError → DbError
  | SqlxError.RowNotFound => DbError.NotFound
  | SqlxError.Other => DbError.Other

/-- `delete_store` (lib.rs:230-240): one statement,
`delete from store where user_id = $1`.  Only the `store` table is
touched; the `store_idx_cache` table is left as it is. -/
def delete_store (u : Int) (st : DbState) : DbState :=
  { st with store := st.store.filter (fun r => !(r.user_id == u)) }

/-- A concrete state with one store row and one cache row, both owned
by user 1. -/
def c1State : DbState :=
  { store := [{ id := "s1", client_id := "c1", host := "h1", idx := 0,
                timestamp := 0, version := "v0", tag := "history",
                data := "d", cek := "k", user_id := 1 }],
    cache := [{ user_id := 1, host := "h1", tag := "history", idx := 0 }] }

/-- Modelled from the spec: the `store` table's uniqueness constraint is
declared in the crate's `./migrations` directory, which is not part of
the sources; the spec describes the persisted layout as "a record table
with a uniqueness constraint over (user, host, tag, index)".  A new row
conflicts with the table iff a row with the same
`(user_id, host, tag, idx)` already exists. -/
def storeConflict (store : List StoreRow) (row : StoreRow) : Bool :=
  store.any (fun r =>
    r.user_id == row.user_id && r.host == row.host &&
    r.tag == row.tag && r.idx == row.idx)

/-- The row built for record `r` of user `u` by the insert statement of
`add_records` (lib.rs:493-508); `gid` is the fresh server-side uuid. -/
def recordRow (u : Int) (gid : String) (r : Record) : StoreRow :=
  { id := gid, client_id := r.id, host := r.host, idx := toI64 r.idx,
    timestamp := toI64 r.timestamp, version := r.version, tag := r.tag,
    data := r.data.data, cek := r.data.content_encryption_key,
    user_id := u }

/-- `insert into store ... on conflict do nothing`: a conflicting
insert leaves the table unchanged, a non-conflicting one appends. -/
def insertRecord (u : Int) (gid : String) (r : Record) (store : List StoreRow) :
    List StoreRow :=
  if storeConflict store (recordRow u gid r) then store
  else store ++ [recordRow u gid r]

/-- All inserts of the batch, in order; `ids` yields the fresh uuid for
the `k`-th record (`atuin_common::utils::uuid_v7()`). -/
def insertAll (u : Int) (ids : Nat → String) (k : Nat) :
    List Record → List StoreRow → List StoreRow
  | [], store => store
  | r :: rest, store => insertAll u ids (k + 1) rest (insertRecord u (ids k) r store)

/-- One step of the `heads` HashMap update (lib.rs:513-521):
`entry((host, tag)).and_modify(max).or_insert(idx)`. -/
def headsStep (m : String × String → Option Nat) (r : Record) :
    String × String → Option Nat :=
  fun k =>
    if k = (r.host, r.tag) then
      match m k with
      | some e => some (if r.idx > e then r.idx else e)
      | none => some r.idx
    else m k

/-- The `heads` map after one pass over the batch: per (host, tag) pair,
the running maximum u64 index observed within the batch. -/
def heads (rs : List Record) : String × String → Option Nat :=
  rs.foldl headsStep (fun _ => none)

/-- The set of (host, tag) keys of the `heads` map, as a duplicate-free
list (the iteration order of the Rust HashMap is immaterial because the
per-key upserts below commute across distinct keys). -/
def headKeys (rs : List Record) : List (String × String) :=
  (rs.map (fun r => (r.host, r.tag))).dedup

/-- The `(user_id, host, tag)` key predicate on cache rows, as used by
the conflict target of the cache upsert. -/
def cKey (u : Int) (h t : String) (c : CacheRow) : Bool :=
  c.user_id == u && c.host == h && c.tag == t

/-- The cache upsert statement (lib.rs:527-536):
`insert into store_idx_cache (user_id, host, tag, idx) values ...
on conflict(user_id, host, tag) do update set
idx = max(store_idx_cache.idx, $4)`.  The unique index over
`(user_id, host, tag)` required by the conflict target is declared in
the missing migrations; the spec's layout has "a cache table with one
row per (user, host, tag)". -/
def cacheUpsert (u : Int) (h t : String) (v : Int) (cache : List CacheRow) :
    List CacheRow :=
  if cache.any (cKey u h t) then
    cache.map (fun c => if cKey u h t c then { c with idx := max c.idx v } else c)
  else cache ++ [{ user_id := u, host := h, tag := t, idx := v }]

/-- The cache-upsert loop of `add_records` (lib.rs:525-540), iterating
over the `heads` map. -/
def upsertAll (u : Int) (hv : String × String → Option Nat)
    (keys : List (String × String)) (cache : List CacheRow) : List CacheRow :=
  keys.foldl
    (fun c k =>
      match hv k with
      | some v => cacheUpsert u k.1 k.2 (toI64 v) c
      | none => c)
    cache

/-- `add_records` when every statement succeeds: all record inserts,
then all cache upserts, then commit. -/
def add_records (u : Int) (ids : Nat → String) (rs : List Record)
    (st : DbState) : DbState :=
  { store := insertAll u ids 0 rs st.store,
    cache := upsertAll u (heads rs) (headKeys rs) st.cache }

/-- The record-insert loop with a failure oracle: `oracle s` is the
outcome of the `s`-th sqlx call of the transaction (`none` = success).
Any failure propagates immediately via `.map_err(fix_error)?`. -/
def runInserts (oracle : Nat → Option SqlxError) (u : Int) (ids : Nat → String)
    (k s : Nat) : List Record → List StoreRow → Except DbError (List StoreRow × Nat)
  | [], store => Except.ok (store, s)
  | r :: rest, store =>
    match oracle s with
    | some e => Except.error (fix_error e)
    | none => runInserts oracle u ids (k + 1) (s + 1) rest (insertRecord u (ids k) r store)

/-- The cache-upsert loop with a failure oracle. -/
def runUpserts (oracle : Nat → Option SqlxError) (u : Int)
    (hv : String × String → Option Nat) (s : Nat) :
    List (String × String) → List CacheRow → Except DbError (List CacheRow × Nat)
  | [], cache => Except.ok (cache, s)
  | k :: rest, cache =>
    match oracle s with
    | some e => Except.error (fix_error e)
    | none =>
      runUpserts oracle u hv (s + 1) rest
        (match hv k with
         | some v => cacheUpsert u k.1 k.2 (toI64 v) cache
         | none => cache)

/-- `add_records` with a failure oracle, mirroring the transaction
structure of lib.rs:471-545: statement 0 is `pool.begin()`, then one
statement per record insert, one per cache upsert, and finally
`tx.commit()`.  On any failure the transaction is dropped without
commit, so the returned state is the original one (rollback). -/
def add_recordsF (oracle : Nat → Option SqlxError) (u : Int) (ids : Nat → String)
    (rs : List Record) (st : DbState) : Except DbError Unit × DbState :=
  match oracle 0 with
  | some e => (Except.error (fix_error e), st)
  | none =>
    match runInserts oracle u ids 0 1 rs st.store with
    | Except.error e => (Except.error e, st)
    | Except.ok (store2, s2) =>
      match runUpserts oracle u (heads rs) s2 (headKeys rs) st.cache with
      | Except.error e => (Except.error e, st)
      | Except.ok (cache2, s3) =>
        match oracle s3 with
        | some e => (Except.error (fix_error e), st)
        | none => (Except.ok (), { store := store2, cache := cache2 })

/-- Maximum of a list of `u64` indices, `none` on the empty list. -/
def listMaxNat : List Nat → Option Nat
  | [] => none
  | x :: xs =>
    match listMaxNat xs with
    | none => some x
    | some m => some (max x m)

/-- Lookup of a cache row by its `(user_id, host, tag)` key. -/
def cacheLookup (u : Int) (h t : String) (cache : List CacheRow) : Option Int :=
  (cache.find? (cKey u h t)).map (fun c => c.idx)

/-- The `where` clause of the select in `next_records` (lib.rs:593-594):
`user_id = $1 and tag = $2 and host = $3 and idx >= $4`, with the
start bound already cast to i64. -/
def rowMatch (u : Int) (host tag : String) (start : Int) (r : StoreRow) : Bool :=
  r.user_id == u && r.tag == tag && r.host == host && decide (start ≤ r.idx)

/-- `order by idx asc`: the rows sorted ascending by the stored (i64)
index column. -/
def sortByIdx (l : List StoreRow) : List StoreRow :=
  List.insertionSort (fun a b => a.idx ≤ b.idx) l

/-- `limit $5` with an i64 argument: sqlite treats a negative limit as
"no limit". -/
def limitRows (c : Int) (l : List StoreRow) : List StoreRow :=
  if c < 0 then l else l.take c.toNat

/-- The row list produced by the select statement of `next_records`. -/
def selectRows (u : Int) (host tag : String) (start : Int) (count : Int)
    (st : DbState) : List StoreRow :=
  limitRows count (sortByIdx (st.store.filter (rowMatch u host tag start)))

/-- `impl From<DbRecord> for Record<EncryptedData>` (lib.rs:570-586).
The two `.parse().unwrap()` calls are modelled by returning `none`
(a panic) when `parse` fails on the stored `id` or `host` column. -/
def rowToRecord (parse : String → Option String) (row : StoreRow) : Option Record :=
  match parse row.id, parse row.host with
  | some i, some h =>
    some { id := i, idx := toU64 row.idx, host := h, tag := row.tag,
           timestamp := toU64 row.timestamp, version := row.version,
           data := { data := row.data,
                     content_encryption_key := row.cek } }
  | _, _ => none

/-- The `.map(|f| f.into()).collect()` loop of `next_records`
(lib.rs:608-614): each row is converted in order, and the first
conversion panic aborts the whole operation (`none`). -/
def collectRecords (parse : String → Option String) : List StoreRow → Option (List Record)
  | [] => some []
  | row :: rest =>
    match rowToRecord parse row, collectRecords parse rest with
    | some rec, some l => some (rec :: l)
    | _, _ => none

/-- `next_records` (lib.rs:547-626).  `inj` is the outcome of the
underlying `fetch_all` call: `none` means the query ran and returned
its rows, `some e` injects the sqlx failure `e`.  The outer `Option` is
`none` when the row conversion panics.  An `Err(DbError::NotFound)`
from the fetch is converted into `Ok(vec![])`. -/
def next_records (parse : String → Option String) (u : Int) (host tag : String)
    (start : Option Nat) (count : Nat) (inj : Option SqlxError) (st : DbState) :
    Option (Except DbError (List Record)) :=
  let startI : Int := toI64 (start.getD 0)
  let fetched : Except DbError (List StoreRow) :=
    match inj with
    | some e => Except.error (fix_error e)
    | none => Except.ok (selectRows u host tag startI (toI64 count) st)
  match fetched with
  | Except.ok rows =>
    match collectRecords parse rows with
    | some l => some (Except.ok l)
    | none => none
  | Except.error DbError.NotFound => some (Except.ok [])
  | Except.error e => some (Except.error e)

/-- The row struct `S` of `status`, with its derived lexicographic
order key (host, tag, idx). -/
structure S where
  host : String
  tag : String
  idx : Option Int
  deriving DecidableEq

/-- Rust `Option<i64>: Ord`: `None` sorts before `Some`. -/
def optIntLe : Option Int → Option Int → Bool
  | none, _ => true
  | some _, none => false
  | some a, some b => decide (a ≤ b)

/-- The derived `Ord` of `S`: lexicographic on (host, tag, idx). -/
def sLe (a b : S) : Bool :=
  match compare a.host b.host with
  | Ordering.lt => true
  | Ordering.gt => false
  | Ordering.eq =>
    match compare a.tag b.tag with
    | Ordering.lt => true
    | Ordering.gt => false
    | Ordering.eq => optIntLe a.idx b.idx

/-- `Vec::sort` on a vector of `S`. -/
def sortS (l : List S) : List S :=
  List.insertionSort (fun a b => sLe a b = true) l

/-- The distinct `(host, tag)` groups of `group by host, tag` over the
user's store rows. -/
def groupKeys (u : Int) (store : List StoreRow) : List (String × String) :=
  ((store.filter (fun r => r.user_id == u)).map (fun r => (r.host, r.tag))).dedup

/-- Maximum of a list of i64 column values. -/
def listMaxInt : List Int → Option Int
  | [] => none
  | x :: xs =>
    match listMaxInt xs with
    | none => some x
    | some m => some (max x m)

/-- `max(idx)` of the user's store rows for one (host, tag) group:
the aggregate of `select host, tag, max(idx) from store where
user_id = $1 group by host, tag`. -/
def maxIdx (u : Int) (h t : String) (store : List StoreRow) : Option Int :=
  listMaxInt ((store.filter
    (fun r => r.user_id == u && r.host == h && r.tag == t)).map (fun r => r.idx))

/-- The `res` vector of `status` after `res.sort()`. -/
def statusRes (u : Int) (store : List StoreRow) : List S :=
  sortS ((groupKeys u store).map (fun k => ⟨k.1, k.2, maxIdx u k.1 k.2 store⟩))

/-- The `cached_res` vector of `status` after `cached_res.sort()`. -/
def statusCached (u : Int) (cache : List CacheRow) : List S :=
  sortS ((cache.filter (fun c => c.user_id == u)).map
    (fun c => ⟨c.host, c.tag, some c.idx⟩))

/-- `RecordStatus` modelled as an association list from the parsed
(host, tag) key to the u64 index. -/
abbrev RecordStatusM := List ((String × String) × Nat)

/-- `RecordStatus::set_raw(host, tag, idx)`: map update. -/
def set_raw (m : RecordStatusM) (h t : String) (v : Nat) : RecordStatusM :=
  if m.any (fun e => e.1 == (h, t)) then
    m.map (fun e => if e.1 == (h, t) then (e.1, v) else e)
  else m ++ [((h, t), v)]

/-- The `set_raw` loop of `status` (lib.rs:674-680), over the sorted
`res` rows: `HostId(i.host.parse().unwrap())` and `i.idx.unwrap()` are
panics modelled by `none`. -/
def statusBuild (parse : String → Option String) :
    List S → RecordStatusM → Option RecordStatusM
  | [], m => some m
  | i :: rest, m =>
    match parse i.host, i.idx with
    | some h, some v => statusBuild parse rest (set_raw m h i.tag (toU64 v))
    | _, _ => none

/-- `status` (lib.rs:628-683): the returned `RecordStatus` together
with the cache-consistency flag `equal` (the observability signal fed
to the metrics counters).  The outer `Option` is `none` on a parse or
unwrap panic. -/
def status (parse : String → Option String) (u : Int) (st : DbState) :
    Option (RecordStatusM × Bool) :=
  let res := statusRes u st.store
  let equal := res = statusCached u st.cache
  (statusBuild parse res []).map (fun m => (m, decide equal))

/-- Lookup in the modelled `RecordStatus`. -/
def rsLookup (m : RecordStatusM) (k : String × String) : Option Nat :=
  (m.find? (fun e => e.1 == k)).map (fun e => e.2)

/-- The u64 indices of the batch records belonging to stream (h, t). -/
def batchFor (h t : String) (rs : List Record) : List Nat :=
  (rs.filter (fun r => r.host == h && r.tag == t)).map (fun r => r.idx)

/-- Merge of two optional maxima. -/
def mergeOpt : Option Nat → Option Nat → Option Nat
  | none, b => b
  | some x, none => some x
  | some x, some y => some (max x y)

/-- A two-record fixture batch for stream (h1, history). -/
def wRec1 : Record :=
  { id := "r1", idx := 3, host := "h1", tag := "history", timestamp := 10,
    version := "v0", data := { data := "d1", content_encryption_key := "k1" } }

/-- A second fixture record with a higher index on the same stream. -/
def wRec2 : Record :=
  { id := "r2", idx := 5, host := "h1", tag := "history", timestamp := 11,
    version := "v0", data := { data := "d2", content_encryption_key := "k2" } }

/-- The insert's natural-identity key of record `r` for user `u` is
present in the store. -/
def keyPresent (store : List StoreRow) (u : Int) (r : Record) : Bool :=
  store.any (fun q =>
    q.user_id == u && q.host == r.host && q.tag == r.tag && q.idx == toI64 r.idx)

instance : IsTotal StoreRow (fun a b => a.idx ≤ b.idx) :=
  ⟨fun a b => Int.le_total a.idx b.idx⟩

instance : IsTrans StoreRow (fun a b => a.idx ≤ b.idx) :=
  ⟨fun _ _ _ h1 h2 => le_trans h1 h2⟩

/-- Store fixture rows on stream (h1, history) for user 7. -/
def c5Row1 : StoreRow :=
  { id := "a1", client_id := "c1", host := "h1", idx := 1, timestamp := 0,
    version := "v0", tag := "history", data := "d1", cek := "k1", user_id := 7 }

/-- Second fixture row, index 3. -/
def c5Row3 : StoreRow :=
  { id := "a3", client_id := "c3", host := "h1", idx := 3, timestamp := 0,
    version := "v0", tag := "history", data := "d3", cek := "k3", user_id := 7 }

/-- Third fixture row, index 5. -/
def c5Row5 : StoreRow :=
  { id := "a5", client_id := "c5", host := "h1", idx := 5, timestamp := 0,
    version := "v0", tag := "history", data := "d5", cek := "k5", user_id := 7 }

/-- A row of a different stream (host h2), same user. -/
def c5RowOther : StoreRow :=
  { id := "b1", client_id := "e1", host := "h2", idx := 9, timestamp := 0,
    version := "v0", tag := "history", data := "do", cek := "ko", user_id := 7 }

/-- Fixture state for the pull-path witnesses. -/
def c5State : DbState :=
  { store := [c5Row5, c5Row1, c5RowOther, c5Row3], cache := [] }

/-- A store row whose server-side id does not parse back into a uuid. -/
def c9Row : StoreRow :=
  { id := "bad", client_id := "c", host := "h1", idx := 1, timestamp := 0,
    version := "v0", tag := "history", data := "d", cek := "k", user_id := 1 }

/-- Fixture state holding the malformed row. -/
def c9State : DbState := { store := [c9Row], cache := [] }

/-- A parse function that fails exactly on the malformed id. -/
def badParse : String → Option String :=
  fun s => if s == "bad" then none else some s

/-- The full-scan aggregation of spec §4.3, written independently: the
maximum stored index among the user's records for one (host, tag)
stream, `none` when the user has no record for the pair. -/
def specStreamMax (u : Int) (h t : String) (store : List StoreRow) : Option Int :=
  ((store.filter (fun r => r.user_id == u && r.host == h && r.tag == t)).map
    (fun r => r.idx)).max?

/-- The parsed key `HostId(i.host.parse().unwrap())` paired with the
tag, as used by the `set_raw` loop. -/
def sKey (parse : String → Option String) (i : S) : Option (String × String) :=
  (parse i.host).map (fun ph => (ph, i.tag))

/-- The u64 value `i.idx.unwrap() as u64` written by the `set_raw`
loop. -/
def sVal (i : S) : Option Nat := i.idx.map toU64

/-- First-match lookup over a row list, keyed by the parsed key. -/
def lookupL (parse : String → Option String) (l : List S) (k : String × String) :
    Option Nat :=
  l.findSome? (fun i => if sKey parse i = some k then sVal i else none)

/-! ## Theorems -/

/-- C1 counterexample: after `delete_store 1` on `c1State`, a cache row
owned by user 1 is still present, so the claim that no rows owned by the
user remain in the index cache table is false. -/
theorem c1_cache_row_remains :
    (delete_store 1 c1State).cache.any (fun c => c.user_id == 1) = true := by
  decide

/-- C1 (amended): after `delete_store u`, no store rows for `u` remain,
every store row of another user remains, and the index cache table is
completely unchanged (cache rows for `u` are not removed). -/
theorem c1_delete_store_spec (u : Int) (st : DbState) :
    (∀ r ∈ (delete_store u st).store, r.user_id ≠ u) ∧
    (∀ r ∈ st.store, r.user_id ≠ u → r ∈ (delete_store u st).store) ∧
    (delete_store u st).cache = st.cache := by
  refine ⟨?_, ?_, rfl⟩
  · intro r hr
    have h := List.of_mem_filter hr
    simpa using h
  · intro r hr hne
    refine List.mem_filter.2 ⟨hr, ?_⟩
    simpa using hne

theorem mergeOpt_none_right (a : Option Nat) : mergeOpt a none = a := by
  cases a <;> rfl

theorem mergeOpt_assoc (a b c : Option Nat) :
    mergeOpt (mergeOpt a b) c = mergeOpt a (mergeOpt b c) := by
  cases a <;> cases b <;> cases c <;> simp [mergeOpt, Nat.max_assoc]

theorem mergeOpt_comm (a b : Option Nat) : mergeOpt a b = mergeOpt b a := by
  cases a <;> cases b <;> simp [mergeOpt, Nat.max_comm]

theorem listMaxNat_cons (x : Nat) (xs : List Nat) :
    listMaxNat (x :: xs) = mergeOpt (some x) (listMaxNat xs) := by
  cases h : listMaxNat xs <;> simp [listMaxNat, mergeOpt, h]

theorem heads_go (rs : List Record) :
    ∀ (m : String × String → Option Nat) (h t : String),
      rs.foldl headsStep m (h, t) = mergeOpt (m (h, t)) (listMaxNat (batchFor h t rs)) := by
  induction rs with
  | nil =>
    intro m h t
    simp [batchFor, listMaxNat, mergeOpt_none_right]
  | cons r rest ih =>
    intro m h t
    show (rest.foldl headsStep (headsStep m r)) (h, t) = _
    rw [ih]
    by_cases hk : (h, t) = (r.host, r.tag)
    · have hh : h = r.host := congrArg Prod.fst hk
      have ht : t = r.tag := congrArg Prod.snd hk
      subst hh
      subst ht
      have h1 : headsStep m r (r.host, r.tag) = mergeOpt (m (r.host, r.tag)) (some r.idx) := by
        cases hm : m (r.host, r.tag) with
        | none => simp [headsStep, hm, mergeOpt]
        | some e =>
          have hmax : (if r.idx > e then r.idx else e) = max e r.idx := by
            rcases Nat.lt_or_ge e r.idx with hlt | hge
            · rw [if_pos hlt, Nat.max_eq_right (Nat.le_of_lt hlt)]
            · rw [if_neg (Nat.not_lt.mpr hge), Nat.max_eq_left hge]
          show (if (r.host, r.tag) = (r.host, r.tag) then
              match m (r.host, r.tag) with
              | some e => some (if r.idx > e then r.idx else e)
              | none => some r.idx
            else m (r.host, r.tag)) = _
          rw [if_pos rfl, hm]
          show some (if r.idx > e then r.idx else e) = mergeOpt (some e) (some r.idx)
          rw [hmax]
          rfl
      have h2 : batchFor r.host r.tag (r :: rest) = r.idx :: batchFor r.host r.tag rest := by
        simp [batchFor]
      rw [h1, h2, listMaxNat_cons, mergeOpt_assoc]
    · have h1 : headsStep m r (h, t) = m (h, t) := by
        simp [headsStep, hk]
      have h2 : batchFor h t (r :: rest) = batchFor h t rest := by
        have : ¬(r.host = h ∧ r.tag = t) := by
          intro hc
          exact hk (by simp [hc.1, hc.2])
        simp only [batchFor, List.filter_cons]
        rw [if_neg]
        simp only [Bool.and_eq_true, beq_iff_eq]
        exact this
      rw [h1, h2]

theorem heads_eq (rs : List Record) (h t : String) :
    heads rs (h, t) = listMaxNat (batchFor h t rs) := by
  show rs.foldl headsStep (fun _ => none) (h, t) = _
  rw [heads_go]
  rfl

theorem listMaxNat_perm {l l2 : List Nat} (h : l.Perm l2) :
    listMaxNat l = listMaxNat l2 := by
  induction h with
  | nil => rfl
  | cons x _ ih => rw [listMaxNat_cons, listMaxNat_cons, ih]
  | swap x y l =>
    rw [listMaxNat_cons, listMaxNat_cons, listMaxNat_cons, listMaxNat_cons,
      ← mergeOpt_assoc, ← mergeOpt_assoc, mergeOpt_comm (some y) (some x)]
  | trans _ _ ih1 ih2 => rw [ih1, ih2]

/-- C10: the per-pair value `add_records` merges into the index cache
(the `heads` entry for the pair) equals the true maximum index among the
batch's records for that pair, and it is invariant under any permutation
of the records within the batch; the ascending-order precondition is not
needed. -/
theorem c10_heads_batch_max (rs rs2 : List Record) (h t : String)
    (hperm : rs.Perm rs2) :
    heads rs (h, t) = listMaxNat (batchFor h t rs) ∧
    heads rs2 (h, t) = heads rs (h, t) := by
  refine ⟨heads_eq rs h t, ?_⟩
  rw [heads_eq, heads_eq]
  exact (listMaxNat_perm ((hperm.filter _).map _)).symm

/-- Witness for C10 at the concrete batch [wRec2, wRec1] and its
permutation [wRec1, wRec2]. -/
theorem c10_heads_batch_max_witness :
    heads [wRec2, wRec1] ("h1", "history") =
      listMaxNat (batchFor "h1" "history" [wRec2, wRec1]) ∧
    heads [wRec1, wRec2] ("h1", "history") = heads [wRec2, wRec1] ("h1", "history") :=
  c10_heads_batch_max [wRec2, wRec1] [wRec1, wRec2] "h1" "history"
    (List.Perm.swap wRec1 wRec2 [])

theorem cKey_mk (u : Int) (h t : String) (v : Int) :
    cKey u h t { user_id := u, host := h, tag := t, idx := v } = true := by
  simp [cKey]

theorem cKey_eq_true {u : Int} {h t : String} {c : CacheRow} :
    cKey u h t c = true ↔ c.user_id = u ∧ c.host = h ∧ c.tag = t := by
  simp [cKey, and_assoc]

/-- A row updated only in its `idx` field keeps its key. -/
theorem cKey_set_idx (u : Int) (h t : String) (c : CacheRow) (w : Int) :
    cKey u h t { c with idx := w } = cKey u h t c := by
  simp [cKey]

theorem find?_map_max (u : Int) (h t : String) (v : Int) :
    ∀ (cache : List CacheRow) (c0 : CacheRow),
      cache.find? (cKey u h t) = some c0 →
      (cache.map (fun c => if cKey u h t c then { c with idx := max c.idx v } else c)).find?
          (cKey u h t) = some { c0 with idx := max c0.idx v } := by
  intro cache
  induction cache with
  | nil => intro c0 hc0; simp at hc0
  | cons a rest ih =>
    intro c0 hc0
    by_cases ha : cKey u h t a = true
    · rw [List.find?_cons_of_pos _ ha] at hc0
      cases hc0
      simp only [List.map_cons, if_pos ha]
      exact List.find?_cons_of_pos _ (by rw [cKey_set_idx]; exact ha)
    · rw [List.find?_cons_of_neg _ ha] at hc0
      simp only [List.map_cons, if_neg ha]
      rw [List.find?_cons_of_neg _ ha]
      exact ih c0 hc0

theorem find?_map_other (u u2 : Int) (h t h2 t2 : String) (v : Int)
    (hne : ¬(u2 = u ∧ h2 = h ∧ t2 = t)) :
    ∀ cache : List CacheRow,
      (cache.map (fun c => if cKey u h t c then { c with idx := max c.idx v } else c)).find?
          (cKey u2 h2 t2) = cache.find? (cKey u2 h2 t2) := by
  intro cache
  induction cache with
  | nil => rfl
  | cons a rest ih =>
    simp only [List.map_cons]
    by_cases ha : cKey u h t a = true
    · rw [if_pos ha]
      have ha2 : cKey u2 h2 t2 a = false := by
        rcases cKey_eq_true.mp ha with ⟨e1, e2, e3⟩
        rw [Bool.eq_false_iff]
        intro hk2
        rcases cKey_eq_true.mp hk2 with ⟨f1, f2, f3⟩
        exact hne ⟨by rw [← f1, e1], by rw [← f2, e2], by rw [← f3, e3]⟩
      rw [List.find?_cons_of_neg _ (by rw [cKey_set_idx]; simp [ha2]),
        List.find?_cons_of_neg _ (by simp [ha2])]
      exact ih
    · rw [if_neg (by simp [ha])]
      by_cases ha2 : cKey u2 h2 t2 a = true
      · rw [List.find?_cons_of_pos _ ha2, List.find?_cons_of_pos _ ha2]
      · rw [List.find?_cons_of_neg _ (by simp [ha2]),
          List.find?_cons_of_neg _ (by simp [ha2])]
        exact ih

/-- Lookup after an upsert of the same key: insert-or-max. -/
theorem cacheLookup_upsert_same (u : Int) (h t : String) (v : Int)
    (cache : List CacheRow) :
    cacheLookup u h t (cacheUpsert u h t v cache) =
      some (match cacheLookup u h t cache with
            | none => v
            | some p => max p v) := by
  unfold cacheUpsert
  by_cases hany : cache.any (cKey u h t) = true
  · rw [if_pos hany]
    have hfind : ∃ c, cache.find? (cKey u h t) = some c := by
      have hs : (cache.find? (cKey u h t)).isSome := by
        rw [List.find?_isSome]
        simpa using List.any_eq_true.mp hany
      exact Option.isSome_iff_exists.mp hs
    obtain ⟨c0, hc0⟩ := hfind
    rw [cacheLookup, find?_map_max u h t v cache c0 hc0]
    simp [cacheLookup, hc0]
  · rw [if_neg hany]
    have hanyf : cache.any (cKey u h t) = false := Bool.eq_false_iff.mpr hany
    have hnone : cache.find? (cKey u h t) = none := by
      rw [List.find?_eq_none]
      intro x hx hpx
      exact List.any_eq_false.mp hanyf x hx hpx
    simp [cacheLookup, List.find?_append, hnone, cKey_mk]

/-- Lookup after an upsert of a different key: unchanged. -/
theorem cacheLookup_upsert_other (u u2 : Int) (h t h2 t2 : String) (v : Int)
    (cache : List CacheRow) (hne : ¬(u2 = u ∧ h2 = h ∧ t2 = t)) :
    cacheLookup u2 h2 t2 (cacheUpsert u h t v cache) = cacheLookup u2 h2 t2 cache := by
  unfold cacheUpsert
  by_cases hany : cache.any (cKey u h t) = true
  · rw [if_pos hany]
    rw [cacheLookup, find?_map_other u u2 h t h2 t2 v hne cache]
    rfl
  · rw [if_neg hany]
    rw [cacheLookup, List.find?_append]
    have hnew : List.find? (cKey u2 h2 t2)
        [{ user_id := u, host := h, tag := t, idx := v }] = none := by
      rw [List.find?_eq_none]
      intro x hx
      simp only [List.mem_singleton] at hx
      subst hx
      intro hk
      rcases cKey_eq_true.mp hk with ⟨f1, f2, f3⟩
      exact hne ⟨f1.symm, f2.symm, f3.symm⟩
    rw [hnew]
    cases hc : cache.find? (cKey u2 h2 t2) <;> simp [cacheLookup, hc]

theorem upsertAll_cons (u : Int) (hv : String × String → Option Nat)
    (k : String × String) (rest : List (String × String)) (cache : List CacheRow) :
    upsertAll u hv (k :: rest) cache =
      upsertAll u hv rest
        (match hv k with
         | some v => cacheUpsert u k.1 k.2 (toI64 v) cache
         | none => cache) := rfl

/-- Keys not processed by the upsert loop (or rows of another user) are
left unchanged. -/
theorem cacheLookup_upsertAll_skip (u u2 : Int) (h2 t2 : String)
    (hv : String × String → Option Nat) :
    ∀ (keys : List (String × String)) (cache : List CacheRow),
      (u2 ≠ u ∨ (h2, t2) ∉ keys) →
      cacheLookup u2 h2 t2 (upsertAll u hv keys cache) = cacheLookup u2 h2 t2 cache := by
  intro keys
  induction keys with
  | nil => intro cache _; rfl
  | cons k rest ih =>
    intro cache hcond
    rw [upsertAll_cons]
    have hstep : ∀ cache2,
        (match hv k with
         | some v => cacheUpsert u k.1 k.2 (toI64 v) cache2
         | none => cache2) = cache2 ∨
        ∃ v, (match hv k with
         | some v2 => cacheUpsert u k.1 k.2 (toI64 v2) cache2
         | none => cache2) = cacheUpsert u k.1 k.2 (toI64 v) cache2 := by
      intro cache2
      cases hv k with
      | none => exact Or.inl rfl
      | some v => exact Or.inr ⟨v, rfl⟩
    have hrest : u2 ≠ u ∨ (h2, t2) ∉ rest := by
      rcases hcond with hu | hk
      · exact Or.inl hu
      · exact Or.inr (fun hmem => hk (List.mem_cons_of_mem _ hmem))
    rw [ih _ hrest]
    rcases hstep cache with he | ⟨v, he⟩
    · rw [he]
    · rw [he]
      apply cacheLookup_upsert_other
      rintro ⟨e1, e2, e3⟩
      rcases hcond with hu | hk
      · exact hu e1
      · exact hk (by rw [e2, e3]; exact List.mem_cons_self k rest)

/-- Lookup after the whole upsert loop, for a key processed once. -/
theorem cacheLookup_upsertAll_mem (u : Int) (h t : String)
    (hv : String × String → Option Nat) (v : Nat) :
    ∀ (keys : List (String × String)) (cache : List CacheRow),
      keys.Nodup → (h, t) ∈ keys → hv (h, t) = some v →
      cacheLookup u h t (upsertAll u hv keys cache) =
        some (match cacheLookup u h t cache with
              | none => toI64 v
              | some p => max p (toI64 v)) := by
  intro keys
  induction keys with
  | nil => intro cache _ hmem; exact absurd hmem (List.not_mem_nil _)
  | cons k rest ih =>
    intro cache hnd hmem hhv
    rw [upsertAll_cons]
    by_cases hk : k = (h, t)
    · subst hk
      rw [hhv]
      have hnotin : (h, t) ∉ rest := (List.nodup_cons.mp hnd).1
      show cacheLookup u h t
          (upsertAll u hv rest (cacheUpsert u h t (toI64 v) cache)) = _
      rw [cacheLookup_upsertAll_skip u u h t hv rest _ (Or.inr hnotin)]
      exact cacheLookup_upsert_same u h t (toI64 v) cache
    · have hmem2 : (h, t) ∈ rest := by
        rcases List.mem_cons.mp hmem with he | hm
        · exact absurd he.symm hk
        · exact hm
      have hnd2 : rest.Nodup := (List.nodup_cons.mp hnd).2
      have hlook : cacheLookup u h t
          (match hv k with
           | some v2 => cacheUpsert u k.1 k.2 (toI64 v2) cache
           | none => cache) = cacheLookup u h t cache := by
        cases hv k with
        | none => rfl
        | some v2 =>
          apply cacheLookup_upsert_other
          rintro ⟨_, e2, e3⟩
          exact hk (by rw [e2, e3])
      rw [ih _ hnd2 hmem2 hhv, hlook]

/-- One upsert never decreases any cache row value (per-key lookup). -/
theorem cacheLookup_upsert_mono (u u2 : Int) (h t h2 t2 : String) (v : Int)
    (cache : List CacheRow) (p : Int)
    (hp : cacheLookup u2 h2 t2 cache = some p) :
    ∃ q, cacheLookup u2 h2 t2 (cacheUpsert u h t v cache) = some q ∧ p ≤ q := by
  by_cases hk : u2 = u ∧ h2 = h ∧ t2 = t
  · rcases hk with ⟨e1, e2, e3⟩
    subst e1; subst e2; subst e3
    refine ⟨max p v, ?_, le_max_left p v⟩
    rw [cacheLookup_upsert_same, hp]
  · exact ⟨p, by rw [cacheLookup_upsert_other u u2 h t h2 t2 v cache hk]; exact hp,
      le_refl p⟩

/-- The whole upsert loop never decreases any cache row value. -/
theorem cacheLookup_upsertAll_mono (u u2 : Int) (h2 t2 : String)
    (hv : String × String → Option Nat) :
    ∀ (keys : List (String × String)) (cache : List CacheRow) (p : Int),
      cacheLookup u2 h2 t2 cache = some p →
      ∃ q, cacheLookup u2 h2 t2 (upsertAll u hv keys cache) = some q ∧ p ≤ q := by
  intro keys
  induction keys with
  | nil => intro cache p hp; exact ⟨p, hp, le_refl p⟩
  | cons k rest ih =>
    intro cache p hp
    rw [upsertAll_cons]
    cases hk : hv k with
    | none => exact ih cache p hp
    | some v =>
      obtain ⟨q1, hq1, hpq1⟩ := cacheLookup_upsert_mono u u2 k.1 k.2 h2 t2 (toI64 v) cache p hp
      obtain ⟨q2, hq2, hq12⟩ := ih _ q1 hq1
      exact ⟨q2, hq2, le_trans hpq1 hq12⟩

theorem listMaxNat_ne_nil {l : List Nat} {x : Nat} (h : listMaxNat l = some x) :
    l ≠ [] := by
  intro he
  subst he
  simp [listMaxNat] at h

/-- C3: for every (host, tag) pair touched by a batch, the cache entry
for (user, host, tag) after `add_records` is the (i64 image of the)
batch maximum when no entry existed, and otherwise the sqlite `max` of
the previous value and the batch maximum; moreover no cache entry of
any key ever decreases across the call. -/
theorem c3_cache_entry_after_add (u : Int) (ids : Nat → String) (rs : List Record)
    (st : DbState) (h t : String) (bm : Nat)
    (hbm : listMaxNat (batchFor h t rs) = some bm) :
    cacheLookup u h t (add_records u ids rs st).cache =
      some (match cacheLookup u h t st.cache with
            | none => toI64 bm
            | some p => max p (toI64 bm)) ∧
    (∀ u2 h2 t2 p q, cacheLookup u2 h2 t2 st.cache = some p →
      cacheLookup u2 h2 t2 (add_records u ids rs st).cache = some q → p ≤ q) := by
  have hmem : (h, t) ∈ headKeys rs := by
    have hne := listMaxNat_ne_nil hbm
    have hfil : rs.filter (fun r => r.host == h && r.tag == t) ≠ [] := by
      intro hf
      exact hne (by simp [batchFor, hf])
    obtain ⟨r, hr⟩ := List.exists_mem_of_ne_nil _ hfil
    have hr2 := List.mem_filter.mp hr
    have hkey : (r.host, r.tag) = (h, t) := by
      have := hr2.2
      simp only [Bool.and_eq_true, beq_iff_eq] at this
      rw [this.1, this.2]
    refine List.mem_dedup.mpr (List.mem_map.mpr ⟨r, hr2.1, hkey⟩)
  have hhv : heads rs (h, t) = some bm := by rw [heads_eq]; exact hbm
  constructor
  · exact cacheLookup_upsertAll_mem u h t (heads rs) bm (headKeys rs) st.cache
      (List.nodup_dedup _) hmem hhv
  · intro u2 h2 t2 p q hp hq
    obtain ⟨q2, hq2, hpq⟩ := cacheLookup_upsertAll_mono u u2 h2 t2 (heads rs)
      (headKeys rs) st.cache p hp
    have : some q = some q2 := by rw [← hq, ← hq2]; rfl
    cases this
    exact hpq

/-- Witness for C3: a batch for stream (h1, history) with maximum 5,
against a state whose cache already holds 2 for that triple. -/
theorem c3_cache_entry_after_add_witness :
    cacheLookup 7 "h1" "history"
      (add_records 7 (fun _ => "g") [wRec1, wRec2]
        { store := [],
          cache := [{ user_id := 7, host := "h1", tag := "history", idx := 2 }] }).cache =
      some (match cacheLookup 7 "h1" "history"
          [{ user_id := 7, host := "h1", tag := "history", idx := 2 }] with
        | none => toI64 5
        | some p => max p (toI64 5)) ∧
    (∀ u2 h2 t2 p q,
      cacheLookup u2 h2 t2
        [{ user_id := 7, host := "h1", tag := "history", idx := 2 }] = some p →
      cacheLookup u2 h2 t2
        (add_records 7 (fun _ => "g") [wRec1, wRec2]
          { store := [],
            cache := [{ user_id := 7, host := "h1", tag := "history", idx := 2 }] }).cache =
        some q → p ≤ q) :=
  c3_cache_entry_after_add 7 (fun _ => "g") [wRec1, wRec2]
    { store := [],
      cache := [{ user_id := 7, host := "h1", tag := "history", idx := 2 }] }
    "h1" "history" 5 (by decide)

theorem runInserts_cases (oracle : Nat → Option SqlxError) (u : Int)
    (ids : Nat → String) :
    ∀ (rs : List Record) (k s : Nat) (store : List StoreRow),
      (∃ e, runInserts oracle u ids k s rs store = Except.error e) ∨
      ∃ s2, runInserts oracle u ids k s rs store =
        Except.ok (insertAll u ids k rs store, s2) := by
  intro rs
  induction rs with
  | nil => intro k s store; exact Or.inr ⟨s, rfl⟩
  | cons r rest ih =>
    intro k s store
    simp only [runInserts, insertAll]
    cases oracle s with
    | some e => exact Or.inl ⟨fix_error e, rfl⟩
    | none => exact ih (k + 1) (s + 1) (insertRecord u (ids k) r store)

theorem runUpserts_cases (oracle : Nat → Option SqlxError) (u : Int)
    (hv : String × String → Option Nat) :
    ∀ (keys : List (String × String)) (s : Nat) (cache : List CacheRow),
      (∃ e, runUpserts oracle u hv s keys cache = Except.error e) ∨
      ∃ s2, runUpserts oracle u hv s keys cache =
        Except.ok (upsertAll u hv keys cache, s2) := by
  intro keys
  induction keys with
  | nil => intro s cache; exact Or.inr ⟨s, rfl⟩
  | cons k rest ih =>
    intro s cache
    simp only [runUpserts]
    rw [upsertAll_cons]
    cases oracle s with
    | some e => exact Or.inl ⟨fix_error e, rfl⟩
    | none => exact ih (s + 1) _

/-- C6: `add_records` is atomic.  For every failure oracle, the call
either succeeds and the final state is the full effect of all record
inserts and all cache upserts, or it returns an error and the state is
exactly the original one — no partial effect is ever visible. -/
theorem c6_add_records_atomic (oracle : Nat → Option SqlxError) (u : Int)
    (ids : Nat → String) (rs : List Record) (st : DbState) :
    add_recordsF oracle u ids rs st = (Except.ok (), add_records u ids rs st) ∨
    ∃ e, add_recordsF oracle u ids rs st = (Except.error e, st) := by
  unfold add_recordsF
  cases h0 : oracle 0 with
  | some e => exact Or.inr ⟨fix_error e, rfl⟩
  | none =>
    rcases runInserts_cases oracle u ids rs 0 1 st.store with ⟨e, he⟩ | ⟨s2, hok⟩
    · simp only [he]
      exact Or.inr ⟨e, rfl⟩
    · simp only [hok]
      rcases runUpserts_cases oracle u (heads rs) (headKeys rs) s2 st.cache with
        ⟨e, he⟩ | ⟨s3, hok2⟩
      · simp only [he]
        exact Or.inr ⟨e, rfl⟩
      · simp only [hok2]
        cases h3 : oracle s3 with
        | some e => exact Or.inr ⟨fix_error e, rfl⟩
        | none => exact Or.inl rfl

theorem storeConflict_recordRow (store : List StoreRow) (u : Int) (gid : String)
    (r : Record) :
    storeConflict store (recordRow u gid r) = keyPresent store u r := rfl

theorem keyPresent_insertRecord (store : List StoreRow) (u u2 : Int) (gid : String)
    (r r2 : Record) (hp : keyPresent store u2 r2 = true) :
    keyPresent (insertRecord u gid r store) u2 r2 = true := by
  unfold insertRecord
  split
  · exact hp
  · unfold keyPresent at hp ⊢
    rw [List.any_append, hp]
    rfl

theorem keyPresent_insertAll (u u2 : Int) (ids : Nat → String) (r2 : Record) :
    ∀ (rs : List Record) (k : Nat) (store : List StoreRow),
      keyPresent store u2 r2 = true →
      keyPresent (insertAll u ids k rs store) u2 r2 = true := by
  intro rs
  induction rs with
  | nil => intro k store hp; exact hp
  | cons r rest ih =>
    intro k store hp
    exact ih (k + 1) _ (keyPresent_insertRecord store u u2 (ids k) r r2 hp)

theorem keyPresent_self (store : List StoreRow) (u : Int) (gid : String) (r : Record) :
    keyPresent (insertRecord u gid r store) u r = true := by
  unfold insertRecord
  rw [storeConflict_recordRow]
  by_cases hp : keyPresent store u r = true
  · rw [if_pos hp]
    exact hp
  · rw [if_neg hp]
    unfold keyPresent
    rw [List.any_append]
    have hnew : [recordRow u gid r].any (fun q =>
        q.user_id == u && q.host == r.host && q.tag == r.tag &&
        q.idx == toI64 r.idx) = true := by
      simp [recordRow]
    rw [hnew, Bool.or_true]

theorem insertAll_present (u : Int) (ids : Nat → String) :
    ∀ (rs : List Record) (k : Nat) (store : List StoreRow) (r : Record),
      r ∈ rs → keyPresent (insertAll u ids k rs store) u r = true := by
  intro rs
  induction rs with
  | nil => intro k store r hr; exact absurd hr (List.not_mem_nil _)
  | cons r0 rest ih =>
    intro k store r hr
    rcases List.mem_cons.mp hr with he | hm
    · subst he
      exact keyPresent_insertAll u u ids r rest (k + 1) _
        (keyPresent_self store u (ids k) r)
    · exact ih (k + 1) _ r hm

theorem insertAll_of_present (u : Int) (ids : Nat → String) :
    ∀ (rs : List Record) (k : Nat) (store : List StoreRow),
      (∀ r ∈ rs, keyPresent store u r = true) →
      insertAll u ids k rs store = store := by
  intro rs
  induction rs with
  | nil => intro k store _; rfl
  | cons r rest ih =>
    intro k store hall
    show insertAll u ids (k + 1) rest (insertRecord u (ids k) r store) = store
    have hins : insertRecord u (ids k) r store = store := by
      unfold insertRecord
      rw [storeConflict_recordRow, if_pos (hall r (List.mem_cons_self r rest))]
    rw [hins]
    exact ih (k + 1) store (fun r2 hr2 => hall r2 (List.mem_cons_of_mem r hr2))

/-- After an upsert for key (u, h, t, v), every cache row with that key
has value at least v. -/
theorem cacheUpsert_rows_ge (u : Int) (h t : String) (v : Int)
    (cache : List CacheRow) :
    ∀ c ∈ cacheUpsert u h t v cache, cKey u h t c = true → v ≤ c.idx := by
  intro c hc hk
  unfold cacheUpsert at hc
  by_cases hany : cache.any (cKey u h t) = true
  · rw [if_pos hany] at hc
    obtain ⟨c0, hc0, he⟩ := List.mem_map.mp hc
    by_cases hk0 : cKey u h t c0 = true
    · rw [if_pos hk0] at he
      rw [← he]
      exact le_max_right c0.idx v
    · rw [if_neg hk0] at he
      rw [← he] at hk
      exact absurd hk hk0
  · rw [if_neg hany] at hc
    rcases List.mem_append.mp hc with hm | hm
    · exact absurd hk (by
        have := List.any_eq_false.mp (Bool.eq_false_iff.mpr hany) c hm
        simpa using this)
    · simp only [List.mem_singleton] at hm
      subst hm
      exact le_refl v

/-- An upsert for a different (host, tag) pair preserves a per-key
lower bound on cache rows. -/
theorem cacheUpsert_preserve_ge (u : Int) (h t h2 t2 : String) (v w : Int)
    (cache : List CacheRow) (hne : (h2, t2) ≠ (h, t))
    (hge : ∀ c ∈ cache, cKey u h t c = true → v ≤ c.idx) :
    ∀ c ∈ cacheUpsert u h2 t2 w cache, cKey u h t c = true → v ≤ c.idx := by
  intro c hc hk
  unfold cacheUpsert at hc
  by_cases hany : cache.any (cKey u h2 t2) = true
  · rw [if_pos hany] at hc
    obtain ⟨c0, hc0, he⟩ := List.mem_map.mp hc
    by_cases hk0 : cKey u h2 t2 c0 = true
    · rw [if_pos hk0] at he
      have hkc0 : cKey u h t c0 = true := by
        rw [← he] at hk
        rw [← cKey_set_idx u h t c0 (max c0.idx w)]
        exact hk
      calc v ≤ c0.idx := hge c0 hc0 hkc0
        _ ≤ max c0.idx w := le_max_left c0.idx w
        _ = c.idx := by rw [← he]
    · rw [if_neg hk0] at he
      rw [← he]
      exact hge c0 hc0 (by rw [he]; exact hk)
  · rw [if_neg hany] at hc
    rcases List.mem_append.mp hc with hm | hm
    · exact hge c hm hk
    · simp only [List.mem_singleton] at hm
      subst hm
      rcases cKey_eq_true.mp hk with ⟨_, e2, e3⟩
      exact absurd (by rw [← e2, ← e3] : (h2, t2) = (h, t)) hne

/-- The lower bound survives the rest of the upsert loop as long as the
loop does not process (h, t) again. -/
theorem upsertAll_preserve_ge (u : Int) (h t : String) (v : Int)
    (hv : String × String → Option Nat) :
    ∀ (keys : List (String × String)) (cache : List CacheRow),
      (h, t) ∉ keys →
      (∀ c ∈ cache, cKey u h t c = true → v ≤ c.idx) →
      ∀ c ∈ upsertAll u hv keys cache, cKey u h t c = true → v ≤ c.idx := by
  intro keys
  induction keys with
  | nil => intro cache _ hge; exact hge
  | cons k rest ih =>
    intro cache hnm hge
    rw [upsertAll_cons]
    have hkne : (k.1, k.2) ≠ (h, t) := by
      intro he
      exact hnm (by
        have : k = (h, t) := by rw [← he]
        rw [this]
        exact List.mem_cons_self _ _)
    have hge2 : ∀ c ∈ (match hv k with
        | some w => cacheUpsert u k.1 k.2 (toI64 w) cache
        | none => cache), cKey u h t c = true → v ≤ c.idx := by
      cases hv k with
      | none => exact hge
      | some w => exact cacheUpsert_preserve_ge u h t k.1 k.2 v (toI64 w) cache hkne hge
    exact ih _ (fun hm => hnm (List.mem_cons_of_mem _ hm)) hge2

/-- After the whole upsert loop, rows keyed (u, h, t) are at least the
merged value for (h, t). -/
theorem upsertAll_ge (u : Int) (h t : String) (v : Nat)
    (hv : String × String → Option Nat) :
    ∀ (keys : List (String × String)) (cache : List CacheRow),
      keys.Nodup → (h, t) ∈ keys → hv (h, t) = some v →
      ∀ c ∈ upsertAll u hv keys cache, cKey u h t c = true → toI64 v ≤ c.idx := by
  intro keys
  induction keys with
  | nil => intro cache _ hm; exact absurd hm (List.not_mem_nil _)
  | cons k rest ih =>
    intro cache hnd hm hhv
    rw [upsertAll_cons]
    by_cases hk : k = (h, t)
    · subst hk
      rw [hhv]
      have hnotin : (h, t) ∉ rest := (List.nodup_cons.mp hnd).1
      exact upsertAll_preserve_ge u h t (toI64 v) hv rest _ hnotin
        (cacheUpsert_rows_ge u h t (toI64 v) cache)
    · have hm2 : (h, t) ∈ rest := by
        rcases List.mem_cons.mp hm with he | hx
        · exact absurd he.symm hk
        · exact hx
      exact ih _ (List.nodup_cons.mp hnd).2 hm2 hhv

/-- An upsert whose key already has rows, all of value at least v, is
the identity. -/
theorem cacheUpsert_id (u : Int) (h t : String) (v : Int) (cache : List CacheRow)
    (hex : ∃ c ∈ cache, cKey u h t c = true)
    (hge : ∀ c ∈ cache, cKey u h t c = true → v ≤ c.idx) :
    cacheUpsert u h t v cache = cache := by
  unfold cacheUpsert
  obtain ⟨c0, hc0, hk0⟩ := hex
  rw [if_pos (List.any_eq_true.mpr ⟨c0, hc0, hk0⟩)]
  have : ∀ c ∈ cache,
      (if cKey u h t c then { c with idx := max c.idx v } else c) = c := by
    intro c hc
    by_cases hk : cKey u h t c = true
    · rw [if_pos hk, max_eq_left (hge c hc hk)]
    · rw [if_neg hk]
  rw [List.map_congr_left this, List.map_id']

/-- The whole upsert loop is the identity when each processed key
already has rows at least as large as its merged value. -/
theorem upsertAll_id (u : Int) (hv : String × String → Option Nat) :
    ∀ (keys : List (String × String)) (cache : List CacheRow),
      (∀ k ∈ keys, ∀ v, hv k = some v →
        (∃ c ∈ cache, cKey u k.1 k.2 c = true) ∧
        (∀ c ∈ cache, cKey u k.1 k.2 c = true → toI64 v ≤ c.idx)) →
      upsertAll u hv keys cache = cache := by
  intro keys
  induction keys with
  | nil => intro cache _; rfl
  | cons k rest ih =>
    intro cache hall
    rw [upsertAll_cons]
    have hstep : (match hv k with
        | some v => cacheUpsert u k.1 k.2 (toI64 v) cache
        | none => cache) = cache := by
      cases hhv : hv k with
      | none => rfl
      | some v =>
        obtain ⟨hex, hge⟩ := hall k (List.mem_cons_self k rest) v hhv
        exact cacheUpsert_id u k.1 k.2 (toI64 v) cache hex hge
    rw [hstep]
    exact ih cache (fun k2 hk2 => hall k2 (List.mem_cons_of_mem k hk2))

theorem runInserts_none (u : Int) (ids : Nat → String) :
    ∀ (rs : List Record) (k s : Nat) (store : List StoreRow),
      runInserts (fun _ => none) u ids k s rs store =
        Except.ok (insertAll u ids k rs store, s + rs.length) := by
  intro rs
  induction rs with
  | nil => intro k s store; rfl
  | cons r rest ih =>
    intro k s store
    show runInserts (fun _ => none) u ids (k + 1) (s + 1) rest
      (insertRecord u (ids k) r store) = _
    rw [ih]
    have harith : s + 1 + rest.length = s + (r :: rest).length := by
      simp only [List.length_cons]
      omega
    rw [harith]
    simp only [insertAll]

theorem runUpserts_none (u : Int) (hv : String × String → Option Nat) :
    ∀ (keys : List (String × String)) (s : Nat) (cache : List CacheRow),
      runUpserts (fun _ => none) u hv s keys cache =
        Except.ok (upsertAll u hv keys cache, s + keys.length) := by
  intro keys
  induction keys with
  | nil => intro s cache; rfl
  | cons k rest ih =>
    intro s cache
    show runUpserts (fun _ => none) u hv (s + 1) rest _ = _
    rw [ih, upsertAll_cons]
    have harith : s + 1 + rest.length = s + (k :: rest).length := by
      simp only [List.length_cons]
      omega
    rw [harith]

/-- With no injected failure, the fallible write path succeeds with the
pure effect. -/
theorem add_recordsF_none (u : Int) (ids : Nat → String) (rs : List Record)
    (st : DbState) :
    add_recordsF (fun _ => none) u ids rs st = (Except.ok (), add_records u ids rs st) := by
  simp only [add_recordsF, runInserts_none, runUpserts_none, add_records]

/-- The pure write path is idempotent on the full database state. -/
theorem add_records_idem (u : Int) (ids1 ids2 : Nat → String) (rs : List Record)
    (st : DbState) :
    add_records u ids2 rs (add_records u ids1 rs st) = add_records u ids1 rs st := by
  have hstore : insertAll u ids2 0 rs (insertAll u ids1 0 rs st.store) =
      insertAll u ids1 0 rs st.store :=
    insertAll_of_present u ids2 rs 0 _
      (fun r hr => insertAll_present u ids1 rs 0 st.store r hr)
  have hcache : upsertAll u (heads rs) (headKeys rs)
      (upsertAll u (heads rs) (headKeys rs) st.cache) =
      upsertAll u (heads rs) (headKeys rs) st.cache := by
    apply upsertAll_id
    intro k hk v hhv
    constructor
    · have hlook := cacheLookup_upsertAll_mem u k.1 k.2 (heads rs) v (headKeys rs)
        st.cache (List.nodup_dedup _) (by simpa using hk) (by simpa using hhv)
      have hs : ((upsertAll u (heads rs) (headKeys rs) st.cache).find?
          (cKey u k.1 k.2)).isSome := by
        unfold cacheLookup at hlook
        cases hfind : (upsertAll u (heads rs) (headKeys rs) st.cache).find?
            (cKey u k.1 k.2) with
        | none => rw [hfind] at hlook; simp at hlook
        | some c => rfl
      obtain ⟨c, hc⟩ := Option.isSome_iff_exists.mp hs
      exact ⟨c, List.mem_of_find?_eq_some hc, List.find?_some hc⟩
    · exact upsertAll_ge u k.1 k.2 v (heads rs) (headKeys rs) st.cache
        (List.nodup_dedup _) (by simpa using hk) (by simpa using hhv)
  simp only [add_records]
  rw [hstore, hcache]

/-- C4: `add_records` is idempotent.  Re-submitting a batch against a
state that already contains it succeeds (no error from the conflicting
inserts) and leaves the record store and the cache exactly as after the
first submission — no duplicate rows, whatever fresh uuids the second
call draws. -/
theorem c4_add_records_idempotent (u : Int) (ids1 ids2 : Nat → String)
    (rs : List Record) (st : DbState) :
    add_recordsF (fun _ => none) u ids2 rs (add_records u ids1 rs st) =
      (Except.ok (), add_records u ids1 rs st) := by
  rw [add_recordsF_none, add_records_idem]

theorem toI64_of_lt {n : Nat} (h : n < 2 ^ 63) : toI64 n = (n : Int) := by
  unfold toI64
  have hm : n % 2 ^ 64 = n := Nat.mod_eq_of_lt (lt_trans h (by norm_num))
  rw [hm, if_pos h]

theorem limitRows_of_lt {count : Nat} (h : count < 2 ^ 63) (l : List StoreRow) :
    limitRows (toI64 count) l = l.take count := by
  unfold limitRows
  rw [toI64_of_lt h, if_neg (not_lt.mpr (Int.natCast_nonneg count)), Int.toNat_natCast]

theorem collect_some_forall (parse : String → Option String) :
    ∀ (rows : List StoreRow) (l : List Record),
      collectRecords parse rows = some l →
      List.Forall₂ (fun row rec => rowToRecord parse row = some rec) rows l := by
  intro rows
  induction rows with
  | nil =>
    intro l hl
    cases hl
    exact List.Forall₂.nil
  | cons row rest ih =>
    intro l hl
    cases hrow : rowToRecord parse row with
    | none => simp [collectRecords, hrow] at hl
    | some rec =>
      cases hrest : collectRecords parse rest with
      | none => simp [collectRecords, hrow, hrest] at hl
      | some l2 =>
        simp only [collectRecords, hrow, hrest] at hl
        cases hl
        exact List.Forall₂.cons hrow (ih l2 hrest)

theorem collect_of_forall (parse : String → Option String) :
    ∀ rows : List StoreRow,
      (∀ row ∈ rows, (rowToRecord parse row).isSome = true) →
      ∃ l, collectRecords parse rows = some l := by
  intro rows
  induction rows with
  | nil => intro _; exact ⟨[], rfl⟩
  | cons row rest ih =>
    intro hall
    obtain ⟨rec, hrec⟩ := Option.isSome_iff_exists.mp
      (hall row (List.mem_cons_self row rest))
    obtain ⟨l, hl⟩ := ih (fun r hr => hall r (List.mem_cons_of_mem row hr))
    exact ⟨rec :: l, by simp [collectRecords, hrec, hl]⟩

theorem collect_none_of_mem (parse : String → Option String) :
    ∀ rows : List StoreRow, ∀ row ∈ rows,
      rowToRecord parse row = none → collectRecords parse rows = none := by
  intro rows
  induction rows with
  | nil => intro row hr; exact absurd hr (List.not_mem_nil _)
  | cons row0 rest ih =>
    intro row hr hnone
    rcases List.mem_cons.mp hr with he | hm
    · subst he
      simp [collectRecords, hnone]
    · rw [collectRecords, ih row hm hnone]
      cases rowToRecord parse row0 <;> rfl

theorem sortByIdx_perm (l : List StoreRow) : (sortByIdx l).Perm l :=
  List.perm_insertionSort _ l

theorem sortByIdx_sorted (l : List StoreRow) :
    List.Sorted (fun a b : StoreRow => a.idx ≤ b.idx) (sortByIdx l) :=
  List.sorted_insertionSort _ l

/-- C5: for every user, host, tag, optional start and count (with the
count in the u64 range that sqlite's limit treats as a bound),
`next_records` returns exactly the user's store rows matching the query
(host, tag, idx at least the i64 image of start, defaulting to 0),
arranged ascending by the stored index, truncated to the first `count`
rows, each converted to the public record shape. -/
theorem c5_next_records_range (parse : String → Option String) (u : Int)
    (host tag : String) (start : Option Nat) (count : Nat) (st : DbState)
    (hcount : count < 2 ^ 63)
    (hparse : ∀ r ∈ selectRows u host tag (toI64 (start.getD 0)) (toI64 count) st,
      (rowToRecord parse r).isSome = true) :
    ∃ sel l,
      sel.Perm (st.store.filter (rowMatch u host tag (toI64 (start.getD 0)))) ∧
      List.Sorted (fun a b : StoreRow => a.idx ≤ b.idx) sel ∧
      next_records parse u host tag start count none st = some (Except.ok l) ∧
      List.Forall₂ (fun row rec => rowToRecord parse row = some rec)
        (sel.take count) l ∧
      l.length ≤ count := by
  have hsel : selectRows u host tag (toI64 (start.getD 0)) (toI64 count) st =
      (sortByIdx (st.store.filter (rowMatch u host tag (toI64 (start.getD 0))))).take
        count := by
    unfold selectRows
    rw [limitRows_of_lt hcount]
  rw [hsel] at hparse
  obtain ⟨l, hl⟩ := collect_of_forall parse _ hparse
  refine ⟨sortByIdx (st.store.filter (rowMatch u host tag (toI64 (start.getD 0)))),
    l, sortByIdx_perm _, sortByIdx_sorted _, ?_, ?_, ?_⟩
  · simp only [next_records]
    rw [hsel, hl]
  · exact collect_some_forall parse _ l hl
  · have hlen := List.Forall₂.length_eq (collect_some_forall parse _ l hl)
    rw [← hlen]
    exact List.length_take_le count _

/-- Witness for C5: start 3, count 1 over the fixture state. -/
theorem c5_next_records_range_witness :
    ∃ sel l,
      sel.Perm (c5State.store.filter (rowMatch 7 "h1" "history" (toI64 3))) ∧
      List.Sorted (fun a b : StoreRow => a.idx ≤ b.idx) sel ∧
      next_records some 7 "h1" "history" (some 3) 1 none c5State =
        some (Except.ok l) ∧
      List.Forall₂ (fun row rec => rowToRecord some row = some rec)
        (sel.take 1) l ∧
      l.length ≤ 1 :=
  c5_next_records_range some 7 "h1" "history" (some 3) 1 c5State (by decide) (by decide)

/-- C7: `next_records` never returns the absence error kind.  With no
matching rows the result is a successful empty list, and an underlying
row-not-found failure from the fetch is likewise converted into a
successful empty result. -/
theorem c7_next_records_no_absence (parse : String → Option String) (u : Int)
    (host tag : String) (start : Option Nat) (count : Nat) (st : DbState)
    (hempty : st.store.filter (rowMatch u host tag (toI64 (start.getD 0))) = []) :
    (∀ inj, next_records parse u host tag start count inj st ≠
      some (Except.error DbError.NotFound)) ∧
    next_records parse u host tag start count (some SqlxError.RowNotFound) st =
      some (Except.ok []) ∧
    next_records parse u host tag start count none st = some (Except.ok []) := by
  have hsel : selectRows u host tag (toI64 (start.getD 0)) (toI64 count) st = [] := by
    unfold selectRows sortByIdx
    rw [hempty]
    show limitRows (toI64 count) [] = []
    unfold limitRows
    split <;> simp
  refine ⟨?_, rfl, ?_⟩
  · intro inj
    cases inj with
    | none =>
      cases hcol : collectRecords parse
          (selectRows u host tag (toI64 (start.getD 0)) (toI64 count) st) with
      | some l => simp [next_records, hcol]
      | none => simp [next_records, hcol]
    | some e =>
      cases e with
      | RowNotFound => simp [next_records, fix_error]
      | Other => simp [next_records, fix_error]
  · simp only [next_records]
    rw [hsel]
    rfl

/-- Witness for C7: user 2 owns nothing in the C1 fixture state. -/
theorem c7_next_records_no_absence_witness :
    (∀ inj, next_records some 2 "h1" "history" none 5 inj c1State ≠
      some (Except.error DbError.NotFound)) ∧
    next_records some 2 "h1" "history" none 5 (some SqlxError.RowNotFound) c1State =
      some (Except.ok []) ∧
    next_records some 2 "h1" "history" none 5 none c1State = some (Except.ok []) :=
  c7_next_records_no_absence some 2 "h1" "history" none 5 c1State (by decide)

/-- C9: `next_records` never silently drops a matched row: a successful
result converts every selected row in order, and a selected row whose
stored id or host fails to parse makes the whole operation panic
(`none`) instead of returning a shortened successful list. -/
theorem c9_next_records_parse_fatal (parse : String → Option String) (u : Int)
    (host tag : String) (start : Option Nat) (count : Nat) (st : DbState) :
    (∀ l, next_records parse u host tag start count none st = some (Except.ok l) →
      List.Forall₂ (fun row rec => rowToRecord parse row = some rec)
        (selectRows u host tag (toI64 (start.getD 0)) (toI64 count) st) l) ∧
    (∀ row ∈ selectRows u host tag (toI64 (start.getD 0)) (toI64 count) st,
      rowToRecord parse row = none →
      next_records parse u host tag start count none st = none) := by
  constructor
  · intro l hl
    cases hcol : collectRecords parse
        (selectRows u host tag (toI64 (start.getD 0)) (toI64 count) st) with
    | none =>
      have hres : next_records parse u host tag start count none st = none := by
        simp only [next_records, hcol]
      rw [hres] at hl
      exact Option.noConfusion hl
    | some l2 =>
      have hres : next_records parse u host tag start count none st =
          some (Except.ok l2) := by
        simp only [next_records, hcol]
      rw [hres] at hl
      have hll : l2 = l := by simpa using hl
      subst hll
      exact collect_some_forall parse _ l2 hcol
  · intro row hm hnone
    have hcol := collect_none_of_mem parse _ row hm hnone
    simp only [next_records, hcol]

/-- Witness for C9: with the malformed row selected, the operation
panics instead of succeeding without the row. -/
theorem c9_next_records_parse_fatal_witness :
    next_records badParse 1 "h1" "history" none 5 none c9State = none :=
  (c9_next_records_parse_fatal badParse 1 "h1" "history" none 5 c9State).2 c9Row
    (by decide) (by decide)

/-- C8: the contents of the index cache never alter the value returned
by `status`: two states with the same record store (and arbitrary
caches) produce the same returned mapping and the same success/panic
outcome; only the consistency signal may differ. -/
theorem c8_status_ignores_cache (parse : String → Option String) (u : Int)
    (st st2 : DbState) (hstore : st.store = st2.store) :
    Option.map Prod.fst (status parse u st) = Option.map Prod.fst (status parse u st2) := by
  simp only [status, hstore]
  cases statusBuild parse (statusRes u st2.store) [] <;> rfl

/-- Witness for C8: the C1 fixture state against the same store with an
emptied cache. -/
theorem c8_status_ignores_cache_witness :
    Option.map Prod.fst (status some 1 c1State) =
      Option.map Prod.fst (status some 1 { store := c1State.store, cache := [] }) :=
  c8_status_ignores_cache some 1 c1State
    { store := c1State.store, cache := [] } rfl

theorem listMaxInt_eq_max? : ∀ l : List Int, listMaxInt l = l.max? := by
  intro l
  induction l with
  | nil => rfl
  | cons x xs ih =>
    rw [List.max?_cons]
    show (match listMaxInt xs with
      | none => some x
      | some m => some (max x m)) = _
    rw [ih]
    cases xs.max? <;> simp [Option.elim]

theorem maxIdx_eq_spec (u : Int) (h t : String) (store : List StoreRow) :
    maxIdx u h t store = specStreamMax u h t store :=
  listMaxInt_eq_max? _

theorem rsLookup_append (m1 m2 : RecordStatusM) (k : String × String) :
    rsLookup (m1 ++ m2) k = (rsLookup m1 k).or (rsLookup m2 k) := by
  unfold rsLookup
  rw [List.find?_append]
  cases m1.find? (fun e => e.1 == k) <;> simp

theorem rsLookup_singleton (k0 k : String × String) (v : Nat) :
    rsLookup [(k0, v)] k = if k0 = k then some v else none := by
  unfold rsLookup
  by_cases hk : k0 = k
  · subst hk
    rw [List.find?_cons_of_pos _ (by simp), if_pos rfl]
    rfl
  · rw [if_neg hk, List.find?_cons_of_neg _ (by simpa using hk)]
    rfl

theorem set_raw_absent (m : RecordStatusM) (h t : String) (v : Nat)
    (habs : rsLookup m (h, t) = none) :
    set_raw m h t v = m ++ [((h, t), v)] := by
  unfold set_raw
  rw [if_neg]
  intro hany
  obtain ⟨e, he, hkey⟩ := List.any_eq_true.mp hany
  have : m.find? (fun e => e.1 == (h, t)) = none := by
    unfold rsLookup at habs
    cases hf : m.find? (fun e => e.1 == (h, t)) with
    | none => rfl
    | some c => rw [hf] at habs; exact Option.noConfusion habs
  exact absurd hkey (by
    have := List.find?_eq_none.mp this e he
    simpa using this)

theorem lookupL_cons (parse : String → Option String) (i : S) (rest : List S)
    (k : String × String) :
    lookupL parse (i :: rest) k =
      (if sKey parse i = some k then sVal i else none).or (lookupL parse rest k) := by
  unfold lookupL
  rw [List.findSome?_cons]
  cases hf : (if sKey parse i = some k then sVal i else none) <;> simp [hf]

/-- The `set_raw` loop builds exactly the first-match lookup table of
its input rows, appended after the accumulator, provided the parsed
keys are defined, pairwise distinct, and absent from the accumulator. -/
theorem statusBuild_char (parse : String → Option String) :
    ∀ (l : List S) (m0 : RecordStatusM),
      (∀ i ∈ l, (sKey parse i).isSome = true ∧ i.idx.isSome = true) →
      List.Pairwise (fun a b => sKey parse a ≠ sKey parse b) l →
      (∀ i ∈ l, ∀ k, sKey parse i = some k → rsLookup m0 k = none) →
      ∃ m, statusBuild parse l m0 = some m ∧
        ∀ k, rsLookup m k = (rsLookup m0 k).or (lookupL parse l k) := by
  intro l
  induction l with
  | nil =>
    intro m0 _ _ _
    refine ⟨m0, rfl, fun k => ?_⟩
    show rsLookup m0 k = (rsLookup m0 k).or none
    cases rsLookup m0 k <;> rfl
  | cons i rest ih =>
    intro m0 hsound hpw hdis
    obtain ⟨hks, hvs⟩ := hsound i (List.mem_cons_self i rest)
    obtain ⟨ph, hph⟩ : ∃ ph, parse i.host = some ph := by
      cases hx : parse i.host with
      | none =>
        rw [sKey, hx] at hks
        exact absurd hks (by simp)
      | some y => exact ⟨y, rfl⟩
    obtain ⟨v, hv⟩ := Option.isSome_iff_exists.mp hvs
    have hkey : sKey parse i = some (ph, i.tag) := by
      unfold sKey
      rw [hph]
      rfl
    have habs : rsLookup m0 (ph, i.tag) = none :=
      hdis i (List.mem_cons_self i rest) (ph, i.tag) hkey
    have hbuild : statusBuild parse (i :: rest) m0 =
        statusBuild parse rest (set_raw m0 ph i.tag (toU64 v)) := by
      show (match parse i.host, i.idx with
        | some h, some v2 => statusBuild parse rest (set_raw m0 h i.tag (toU64 v2))
        | _, _ => none) = _
      rw [hph, hv]
    have hm0' : set_raw m0 ph i.tag (toU64 v) = m0 ++ [((ph, i.tag), toU64 v)] :=
      set_raw_absent m0 ph i.tag (toU64 v) habs
    have hpwrest : List.Pairwise (fun a b => sKey parse a ≠ sKey parse b) rest :=
      (List.pairwise_cons.mp hpw).2
    have hine : ∀ j ∈ rest, sKey parse i ≠ sKey parse j :=
      (List.pairwise_cons.mp hpw).1
    have hdis2 : ∀ j ∈ rest, ∀ k, sKey parse j = some k →
        rsLookup (set_raw m0 ph i.tag (toU64 v)) k = none := by
      intro j hj k hjk
      rw [hm0', rsLookup_append, hdis j (List.mem_cons_of_mem i hj) k hjk,
        rsLookup_singleton]
      rw [if_neg]
      · rfl
      · intro he
        exact hine j hj (by rw [hkey, hjk, he])
    obtain ⟨m, hmb, hchar⟩ := ih (set_raw m0 ph i.tag (toU64 v))
      (fun j hj => hsound j (List.mem_cons_of_mem i hj)) hpwrest hdis2
    refine ⟨m, by rw [hbuild]; exact hmb, fun k => ?_⟩
    rw [hchar k, hm0', rsLookup_append, rsLookup_singleton, lookupL_cons]
    by_cases hk : (ph, i.tag) = k
    · subst hk
      rw [if_pos rfl, habs, if_pos hkey]
      have hrest : lookupL parse rest (ph, i.tag) = none := by
        unfold lookupL
        rw [List.findSome?_eq_none_iff]
        intro j hj
        rw [if_neg]
        intro hje
        exact hine j hj (by rw [hkey, hje])
      rw [hrest]
      show (some (toU64 v)).or none = none.or ((sVal i).or none)
      rw [sVal, hv]
      rfl
    · rw [if_neg hk, if_neg (by rw [hkey]; exact fun he => hk (by injection he))]
      show ((rsLookup m0 k).or none).or (lookupL parse rest k) =
        (rsLookup m0 k).or (none.or (lookupL parse rest k))
      cases rsLookup m0 k <;> rfl

theorem lookupL_of_mem (parse : String → Option String) :
    ∀ (l : List S) (i : S) (k : String × String) (w : Nat),
      i ∈ l → sKey parse i = some k → sVal i = some w →
      List.Pairwise (fun a b => sKey parse a ≠ sKey parse b) l →
      lookupL parse l k = some w := by
  intro l
  induction l with
  | nil => intro i k w hm; exact absurd hm (List.not_mem_nil _)
  | cons j rest ih =>
    intro i k w hm hk hw hpw
    rw [lookupL_cons]
    rcases List.mem_cons.mp hm with he | hmr
    · subst he
      rw [if_pos hk, hw]
      rfl
    · have hne : sKey parse j ≠ sKey parse i := (List.pairwise_cons.mp hpw).1 i hmr
      rw [if_neg (fun hjk => hne (by rw [hjk, hk]))]
      show Option.or none _ = _
      exact ih i k w hmr hk hw (List.pairwise_cons.mp hpw).2

theorem lookupL_none (parse : String → Option String) (l : List S)
    (k : String × String) (h : ∀ i ∈ l, sKey parse i ≠ some k) :
    lookupL parse l k = none := by
  unfold lookupL
  rw [List.findSome?_eq_none_iff]
  intro i hi
  rw [if_neg (h i hi)]

theorem mem_groupKeys {u : Int} {store : List StoreRow} {k : String × String} :
    k ∈ groupKeys u store ↔
      ∃ r ∈ store, r.user_id = u ∧ r.host = k.1 ∧ r.tag = k.2 := by
  unfold groupKeys
  rw [List.mem_dedup, List.mem_map]
  constructor
  · rintro ⟨r, hr, he⟩
    have hf := List.mem_filter.mp hr
    exact ⟨r, hf.1, by simpa using hf.2, by rw [← he], by rw [← he]⟩
  · rintro ⟨r, hr, hu, hh, ht⟩
    exact ⟨r, List.mem_filter.mpr ⟨hr, by simpa using hu⟩, by rw [hh, ht]⟩

theorem mem_statusRes {u : Int} {store : List StoreRow} {i : S} :
    i ∈ statusRes u store ↔
      i ∈ (groupKeys u store).map (fun k => S.mk k.1 k.2 (maxIdx u k.1 k.2 store)) := by
  unfold statusRes sortS
  exact (List.perm_insertionSort _ _).mem_iff

theorem statusRes_elem {u : Int} {store : List StoreRow} (i : S)
    (hi : i ∈ statusRes u store) :
    ∃ k ∈ groupKeys u store, i = S.mk k.1 k.2 (maxIdx u k.1 k.2 store) := by
  obtain ⟨k, hk, he⟩ := List.mem_map.mp (mem_statusRes.mp hi)
  exact ⟨k, hk, he.symm⟩

theorem listMaxInt_isSome {l : List Int} (h : l ≠ []) :
    (listMaxInt l).isSome = true := by
  cases l with
  | nil => exact absurd rfl h
  | cons x xs => cases hx : listMaxInt xs <;> simp [listMaxInt, hx]

theorem maxIdx_isSome_of_mem {u : Int} {store : List StoreRow}
    {k : String × String} (hk : k ∈ groupKeys u store) :
    (maxIdx u k.1 k.2 store).isSome = true := by
  obtain ⟨r, hr, hu, hh, ht⟩ := mem_groupKeys.mp hk
  have hmem : r ∈ store.filter
      (fun r2 => r2.user_id == u && r2.host == k.1 && r2.tag == k.2) :=
    List.mem_filter.mpr ⟨hr, by simp [hu, hh, ht]⟩
  apply listMaxInt_isSome
  intro hmap
  rw [List.map_eq_nil_iff.mp hmap] at hmem
  exact absurd hmem (List.not_mem_nil r)

theorem statusRes_sound (parse : String → Option String) (u : Int)
    (store : List StoreRow)
    (hp : ∀ r ∈ store, r.user_id = u → (parse r.host).isSome = true) :
    ∀ i ∈ statusRes u store, (sKey parse i).isSome = true ∧ i.idx.isSome = true := by
  intro i hi
  obtain ⟨k, hk, he⟩ := statusRes_elem i hi
  subst he
  refine ⟨?_, maxIdx_isSome_of_mem hk⟩
  obtain ⟨r, hr, hu, hh, ht⟩ := mem_groupKeys.mp hk
  have hps := hp r hr hu
  rw [hh] at hps
  cases hx : parse k.1 with
  | none => rw [hx] at hps; exact absurd hps (by simp)
  | some y => simp [sKey, hx]

theorem statusRes_pairwise (parse : String → Option String) (u : Int)
    (store : List StoreRow)
    (hp : ∀ r ∈ store, r.user_id = u → (parse r.host).isSome = true)
    (hinj : ∀ a b c, parse a = some c → parse b = some c → a = b) :
    List.Pairwise (fun a b => sKey parse a ≠ sKey parse b) (statusRes u store) := by
  have hnd : (groupKeys u store).Nodup := List.nodup_dedup _
  have hpw0 : List.Pairwise (fun a b : S => (a.host, a.tag) ≠ (b.host, b.tag))
      ((groupKeys u store).map (fun k => S.mk k.1 k.2 (maxIdx u k.1 k.2 store))) := by
    rw [List.pairwise_map]
    exact hnd.imp (fun hab he => hab he)
  have hpw1 : List.Pairwise (fun a b : S => (a.host, a.tag) ≠ (b.host, b.tag))
      (statusRes u store) := by
    unfold statusRes sortS
    exact (List.Perm.pairwise_iff (fun hxy he => hxy he.symm)
      (List.perm_insertionSort _ _)).mpr hpw0
  apply List.Pairwise.imp_of_mem ?_ hpw1
  intro a b ha hb hne hkeq
  obtain ⟨hkas, _⟩ := statusRes_sound parse u store hp a ha
  obtain ⟨hkbs, _⟩ := statusRes_sound parse u store hp b hb
  cases hxa : parse a.host with
  | none => rw [sKey, hxa] at hkas; exact absurd hkas (by simp)
  | some pa =>
    cases hxb : parse b.host with
    | none => rw [sKey, hxb] at hkbs; exact absurd hkbs (by simp)
    | some pb =>
      rw [sKey, sKey, hxa, hxb] at hkeq
      have hpair : (pa, a.tag) = (pb, b.tag) := by
        simpa using hkeq
      have hpa : pa = pb := congrArg Prod.fst hpair
      have hta : a.tag = b.tag := congrArg Prod.snd hpair
      have hha : a.host = b.host := hinj a.host b.host pb (by rw [hxa, hpa]) hxb
      exact hne (by rw [hha, hta])

/-- C2: under a defined and injective identifier parse, `status` is the
full-scan aggregation: it succeeds, and the returned mapping sends the
parsed key of every (host, tag) pair with at least one record of the
user to the u64 image of the pair's maximum stored index, contains no
key outside the parse image, and maps pairs without records to
nothing. -/
theorem c2_status_eq_full_scan (parse : String → Option String) (u : Int)
    (st : DbState)
    (hp : ∀ r ∈ st.store, r.user_id = u → (parse r.host).isSome = true)
    (hinj : ∀ a b c, parse a = some c → parse b = some c → a = b) :
    ∃ m sig, status parse u st = some (m, sig) ∧
      (∀ h ph t, parse h = some ph →
        rsLookup m (ph, t) = Option.map toU64 (specStreamMax u h t st.store)) ∧
      (∀ ph t, (rsLookup m (ph, t)).isSome = true → ∃ h, parse h = some ph) := by
  have hsound := statusRes_sound parse u st.store hp
  have hpw := statusRes_pairwise parse u st.store hp hinj
  obtain ⟨m, hmb, hchar⟩ := statusBuild_char parse (statusRes u st.store) []
    hsound hpw (fun _ _ _ _ => rfl)
  refine ⟨m, decide (statusRes u st.store = statusCached u st.cache), ?_, ?_, ?_⟩
  · show (statusBuild parse (statusRes u st.store) []).map _ = _
    rw [hmb]
    rfl
  · intro h ph t hph
    rw [hchar (ph, t)]
    show lookupL parse (statusRes u st.store) (ph, t) = _
    cases hmax : specStreamMax u h t st.store with
    | some v =>
      have hkmem : (h, t) ∈ groupKeys u st.store := by
        have hne : st.store.filter
            (fun r => r.user_id == u && r.host == h && r.tag == t) ≠ [] := by
          intro hf
          rw [specStreamMax, hf] at hmax
          exact Option.noConfusion hmax
        obtain ⟨r, hr⟩ := List.exists_mem_of_ne_nil _ hne
        have hf := List.mem_filter.mp hr
        have hc := hf.2
        simp only [Bool.and_eq_true, beq_iff_eq] at hc
        exact mem_groupKeys.mpr ⟨r, hf.1, hc.1.1, hc.1.2, hc.2⟩
      have hi0 : S.mk h t (maxIdx u h t st.store) ∈ statusRes u st.store :=
        mem_statusRes.mpr (List.mem_map.mpr ⟨(h, t), hkmem, rfl⟩)
      have hkey : sKey parse (S.mk h t (maxIdx u h t st.store)) = some (ph, t) := by
        rw [sKey, hph]
        rfl
      have hval : sVal (S.mk h t (maxIdx u h t st.store)) = some (toU64 v) := by
        rw [sVal]
        show (maxIdx u h t st.store).map toU64 = _
        rw [maxIdx_eq_spec, hmax]
        rfl
      rw [lookupL_of_mem parse (statusRes u st.store) _ (ph, t) (toU64 v)
        hi0 hkey hval hpw]
      rfl
    | none =>
      rw [lookupL_none parse _ _ ?_]
      · rfl
      · intro i hi hkeyi
        obtain ⟨k, hk, he⟩ := statusRes_elem i hi
        subst he
        have hpk : ∃ pk, parse k.1 = some pk ∧ (pk, k.2) = (ph, t) := by
          cases hx : parse k.1 with
          | none =>
            rw [sKey, hx] at hkeyi
            exact absurd hkeyi (by simp)
          | some pk =>
            rw [sKey, hx] at hkeyi
            exact ⟨pk, rfl, by simpa using hkeyi⟩
        obtain ⟨pk, hpks, he2⟩ := hpk
        have hpe : pk = ph := congrArg Prod.fst he2
        have hh : k.1 = h := hinj k.1 h ph (by rw [hpks, hpe]) hph
        have ht2 : k.2 = t := congrArg Prod.snd he2
        obtain ⟨r, hr, hu, hrh, hrt⟩ := mem_groupKeys.mp hk
        have hmem : r ∈ st.store.filter
            (fun r2 => r2.user_id == u && r2.host == h && r2.tag == t) :=
          List.mem_filter.mpr ⟨hr, by
            simp only [Bool.and_eq_true, beq_iff_eq]
            exact ⟨⟨hu, by rw [hrh, hh]⟩, by rw [hrt, ht2]⟩⟩
        rw [specStreamMax] at hmax
        rw [List.map_eq_nil_iff.mp (List.max?_eq_none_iff.mp hmax)] at hmem
        exact absurd hmem (List.not_mem_nil r)
  · intro ph t hsome
    have hsome2 : (lookupL parse (statusRes u st.store) (ph, t)).isSome = true := by
      have := hchar (ph, t)
      rw [this] at hsome
      exact hsome
    obtain ⟨w, hw⟩ := Option.isSome_iff_exists.mp hsome2
    obtain ⟨i, hi, hfi⟩ := List.exists_of_findSome?_eq_some hw
    by_cases hc : sKey parse i = some (ph, t)
    · cases hx : parse i.host with
      | none => rw [sKey, hx] at hc; exact absurd hc (by simp)
      | some y =>
        refine ⟨i.host, ?_⟩
        rw [sKey, hx] at hc
        have hy : (y, i.tag) = (ph, t) := by simpa using hc
        have hyp : y = ph := congrArg Prod.fst hy
        rw [hx, hyp]
    · rw [if_neg hc] at hfi
      exact Option.noConfusion hfi

/-- Witness for C2: the total injective parse `some` over the pull-path
fixture state. -/
theorem c2_status_eq_full_scan_witness :
    ∃ m sig, status some 7 c5State = some (m, sig) ∧
      (∀ h ph t, some h = some ph →
        rsLookup m (ph, t) = Option.map toU64 (specStreamMax 7 h t c5State.store)) ∧
      (∀ ph t, (rsLookup m (ph, t)).isSome = true → ∃ h, some h = some ph) :=
  c2_status_eq_full_scan some 7 c5State (by decide)
    (fun a b c h1 h2 => by
      injection h1 with e1
      injection h2 with e2
      rw [e1, e2])

end AtuinSqlite
